import Mathlib

/-!
# Verification of the stringStorage storage manager

Shallow embedding of `src/database.py` (class `DatabaseManager`): a single
SQLite table `strings (index_key TEXT UNIQUE NOT NULL, data TEXT NOT NULL,
created_at, updated_at TIMESTAMP DEFAULT CURRENT_TIMESTAMP)` with five
operations: `store_string` (upsert), `get_string`, `delete_string`,
`list_all_indices` and `get_statistics`.

The table is modelled as a list of rows in rowid (insertion) order;
`CURRENT_TIMESTAMP` is modelled as a `Nat` supplied by the caller at each
mutating call (the wall clock), so clock monotonicity is an explicit
hypothesis where a claim needs it.  `ORDER BY created_at DESC` is modelled
as the stable `List.insertionSort` on the descending order of `created_at`
(SQLite scans in rowid order and the spec fixes the tie-break only to be
stable, naming insertion order as the implementation's tie-break).
-/

/-- One row of the `strings` table: `index_key TEXT UNIQUE NOT NULL`,
`data TEXT NOT NULL`, and the two timestamps. The rowid is implicit as the
position in the table list. -/
structure Row where
  index_key : String
  data : String
  created_at : Nat
  updated_at : Nat
deriving Repr, DecidableEq

/-- The `strings` table, rows listed in rowid (insertion) order. -/
abbrev Table := List Row

/-- Whether a row with key `k` is live in the table (the state the UNIQUE
constraint checks on INSERT). -/
def keyExists (t : Table) (k : String) : Bool :=
  t.any (fun r => r.index_key == k)

/-- Result dictionary returned by `DatabaseManager.store_string`. -/
structure StoreResult where
  action : String
  message : String
  status_code : Nat
  index : String
  length : Nat
deriving Repr, DecidableEq

/-- Effect of `UPDATE strings SET data = ?, updated_at = CURRENT_TIMESTAMP
WHERE index_key = ?` on a single row: rows whose `index_key` matches get
the new `data` and `updated_at`; all other rows are untouched. -/
def updateRow (k d : String) (n : Nat) (r : Row) : Row :=
  if r.index_key == k then { r with data := d, updated_at := n } else r

/-- `DatabaseManager.store_string` (src/database.py lines 42-91): try
`INSERT INTO strings (index_key, data) VALUES (?, ?)`; on
`sqlite3.IntegrityError` (the UNIQUE constraint on `index_key`) instead run
`UPDATE strings SET data = ?, updated_at = CURRENT_TIMESTAMP WHERE
index_key = ?`.  On INSERT both timestamp columns take their default
`CURRENT_TIMESTAMP`, here the single value `now`. -/
def store_string (t : Table) (index data : String) (now : Nat) :
    StoreResult × Table :=
  if keyExists t index then
    ({ action := "updated"
     , message := "Строка обновлена под индексом \"" ++ index ++ "\""
     , status_code := 200
     , index := index
     , length := data.length },
     t.map (updateRow index data now))
  else
    ({ action := "created"
     , message := "Строка сохранена под индексом \"" ++ index ++ "\""
     , status_code := 201
     , index := index
     , length := data.length },
     t ++ [{ index_key := index, data := data
           , created_at := now, updated_at := now }])

/-- Record dictionary returned by `DatabaseManager.get_string`. -/
structure RecordView where
  index : String
  data : String
  created_at : Nat
  updated_at : Nat
deriving Repr, DecidableEq

/-- `DatabaseManager.get_string` (src/database.py lines 93-123):
`SELECT index_key, data, created_at, updated_at FROM strings WHERE
index_key = ?`, `fetchone`; `None` when no row matches. -/
def get_string (t : Table) (index : String) : Option RecordView :=
  match t.find? (fun r => r.index_key == index) with
  | none => none
  | some r => some { index := r.index_key, data := r.data
                   , created_at := r.created_at, updated_at := r.updated_at }

/-- `DatabaseManager.delete_string` (src/database.py lines 125-151):
`SELECT COUNT(*) ... WHERE index_key = ?`; if 0 return `False` without
touching the table, else `DELETE FROM strings WHERE index_key = ?` and
return `True`. -/
def delete_string (t : Table) (index : String) : Bool × Table :=
  if keyExists t index then
    (true, t.filter (fun r => !(r.index_key == index)))
  else
    (false, t)

/-- The descending `created_at` order used by `ORDER BY created_at DESC`:
`a` may come before `b` when `b.created_at ≤ a.created_at`. -/
def createdDesc (a b : Row) : Prop :=
  b.created_at ≤ a.created_at

instance : DecidableRel createdDesc :=
  fun a b => inferInstanceAs (Decidable (b.created_at ≤ a.created_at))

instance : IsTotal Row createdDesc :=
  ⟨fun a b => le_total b.created_at a.created_at⟩

instance : IsTrans Row createdDesc :=
  ⟨fun _ _ _ h1 h2 => le_trans h2 h1⟩

/-- `ORDER BY created_at DESC` over the table: stable sort, newest
creation first, rowid (insertion) order as tie-break. -/
def orderByCreatedDesc (t : Table) : List Row :=
  t.insertionSort createdDesc

/-- One element of the list returned by
`DatabaseManager.list_all_indices`. -/
structure IndexEntry where
  index : String
  created_at : Nat
  updated_at : Nat
  data_length : Nat
deriving Repr, DecidableEq

/-- The projection `SELECT index_key, created_at, updated_at,
LENGTH(data) as data_length` of one row. -/
def toIndexEntry (r : Row) : IndexEntry :=
  { index := r.index_key, created_at := r.created_at
  , updated_at := r.updated_at, data_length := r.data.length }

/-- `DatabaseManager.list_all_indices` (src/database.py lines 153-181):
`SELECT index_key, created_at, updated_at, LENGTH(data) as data_length
FROM strings ORDER BY created_at DESC`. -/
def list_all_indices (t : Table) : List IndexEntry :=
  (orderByCreatedDesc t).map toIndexEntry

/-- The `latest_record` sub-dictionary of the statistics. -/
structure LatestRecord where
  index : String
  created_at : Nat
deriving Repr, DecidableEq

/-- Statistics dictionary returned by `DatabaseManager.get_statistics`;
`latest_record = none` models the key being omitted from the dict. -/
structure Stats where
  total_records : Nat
  total_data_size : Nat
  database_file : String
  database_exists : Bool
  latest_record : Option LatestRecord
deriving Repr, DecidableEq

/-- `DatabaseManager.get_statistics` (src/database.py lines 183-225):
`SELECT COUNT(*)`, `SELECT SUM(LENGTH(data))` (with `or 0` turning the
NULL sum of an empty table into 0), and `SELECT index_key, created_at
FROM strings ORDER BY created_at DESC LIMIT 1`; the `latest_record` key is
added only when that last query returned a row.  `database_path` and the
`os.path.exists` check are environment inputs, passed in here. -/
def get_statistics (t : Table) (database_path : String)
    (db_exists : Bool) : Stats :=
  { total_records := t.length
  , total_data_size := (t.map (fun r => r.data.length)).sum
  , database_file := database_path
  , database_exists := db_exists
  , latest_record :=
      (orderByCreatedDesc t).head?.map
        (fun r => { index := r.index_key, created_at := r.created_at }) }

/-! ## Helper lemmas -/

/-- The projection of a row into the dictionary `get_string` returns. -/
def rowView (r : Row) : RecordView :=
  { index := r.index_key, data := r.data
  , created_at := r.created_at, updated_at := r.updated_at }

theorem get_string_eq_find (t : Table) (k : String) :
    get_string t k = (t.find? (fun r => r.index_key == k)).map rowView := by
  unfold get_string
  cases t.find? (fun r => r.index_key == k) <;> rfl

theorem keyExists_iff (t : Table) (k : String) :
    keyExists t k = true ↔ ∃ r ∈ t, r.index_key = k := by
  simp [keyExists]

theorem keyExists_eq_false_iff (t : Table) (k : String) :
    keyExists t k = false ↔ ∀ r ∈ t, r.index_key ≠ k := by
  simp [keyExists]

theorem find?_eq_none_of_absent {t : Table} {k : String}
    (h : keyExists t k = false) :
    t.find? (fun r => r.index_key == k) = none := by
  rw [List.find?_eq_none]
  intro r hr
  simpa using (keyExists_eq_false_iff t k).1 h r hr

/-- Looking up a key after the UPDATE-all-matching-rows map: the first
matching row keeps its key and `created_at`, and carries the new `data`
and `updated_at`. -/
theorem get_string_map_update (t : Table) (k d : String) (n : Nat) :
    get_string (t.map (updateRow k d n)) k =
      (t.find? (fun r => r.index_key == k)).map
        (fun r => { index := r.index_key, data := d
                  , created_at := r.created_at, updated_at := n }) := by
  induction t with
  | nil => rfl
  | cons x xs ih =>
    rw [List.map_cons, get_string_eq_find]
    cases hbk : (x.index_key == k) with
    | true => simp [List.find?, updateRow, hbk, rowView]
    | false =>
      have hux : updateRow k d n x = x := by simp [updateRow, hbk]
      simp only [List.find?, hux, hbk]
      rw [← get_string_eq_find]
      exact ih

/-- Looking up a different key is unaffected by the UPDATE map. -/
theorem get_string_map_update_other (t : Table) (k d : String) (n : Nat)
    (k' : String) (hne : k' ≠ k) :
    get_string (t.map (updateRow k d n)) k' = get_string t k' := by
  induction t with
  | nil => rfl
  | cons x xs ih =>
    rw [List.map_cons, get_string_eq_find, get_string_eq_find]
    by_cases h : (x.index_key == k) = true
    · have hx : x.index_key = k := by simpa using h
      have h1 : ((updateRow k d n x).index_key == k') = false := by
        simp [updateRow, h, hx]
        exact fun hk => hne hk.symm
      have h2 : (x.index_key == k') = false := by
        simp [hx]
        exact fun hk => hne hk.symm
      simp only [List.find?, h1, h2]
      rw [← get_string_eq_find, ← get_string_eq_find]
      exact ih
    · have hux : updateRow k d n x = x := by simp [updateRow, h]
      rw [hux]
      cases h' : (x.index_key == k') with
      | true => simp only [List.find?, h']
      | false =>
        simp only [List.find?, h']
        rw [← get_string_eq_find, ← get_string_eq_find]
        exact ih

/-! ## Claims -/

/-- C1: for every key (the empty string included) and every value, an
Upsert on a state where the key is absent followed by a Get of that key
returns a record whose value is the stored value unchanged and whose
`created_at` equals its `updated_at`. -/
theorem C1_store_get_roundtrip (t : Table) (k v : String) (now : Nat)
    (habs : keyExists t k = false) :
    ∃ rec : RecordView,
      get_string (store_string t k v now).2 k = some rec ∧
      rec.index = k ∧ rec.data = v ∧ rec.created_at = rec.updated_at := by
  refine ⟨⟨k, v, now, now⟩, ?_, rfl, rfl, rfl⟩
  have hstore : (store_string t k v now).2 =
      t ++ [{ index_key := k, data := v, created_at := now
            , updated_at := now }] := by
    simp [store_string, habs]
  rw [hstore, get_string_eq_find, List.find?_append,
    find?_eq_none_of_absent habs]
  simp [rowView]

/-- Witness for C1, with the empty string as the key. -/
theorem C1_witness :
    keyExists [] "" = false ∧
    ∃ rec : RecordView,
      get_string (store_string [] "" "hello" 5).2 "" = some rec ∧
      rec.index = "" ∧ rec.data = "hello" ∧
      rec.created_at = rec.updated_at :=
  ⟨rfl, C1_store_get_roundtrip [] "" "hello" 5 rfl⟩

/-- C2: Upsert(k, v1) then Upsert(k, v2) (clock running forward): the
second Upsert takes the update branch and inserts no second row, and
Get(k) returns v2 with `created_at` unchanged from the first write and
`updated_at ≥ created_at`. -/
theorem C2_update_preserves_creation (t : Table) (k v1 v2 : String)
    (n1 n2 : Nat) (habs : keyExists t k = false) (hmono : n1 ≤ n2) :
    (store_string (store_string t k v1 n1).2 k v2 n2).1.action = "updated" ∧
    ((store_string (store_string t k v1 n1).2 k v2 n2).2).length =
      t.length + 1 ∧
    ∃ rec : RecordView,
      get_string (store_string (store_string t k v1 n1).2 k v2 n2).2 k =
        some rec ∧
      rec.data = v2 ∧ rec.created_at = n1 ∧
      rec.created_at ≤ rec.updated_at := by
  have h1 : (store_string t k v1 n1).2 = t ++ [(⟨k, v1, n1, n1⟩ : Row)] := by
    simp [store_string, habs]
  have hex : keyExists (t ++ [(⟨k, v1, n1, n1⟩ : Row)]) k = true := by
    simp [keyExists]
  rw [h1]
  refine ⟨by simp [store_string, hex], by simp [store_string, hex], ?_⟩
  have h2 : (store_string (t ++ [(⟨k, v1, n1, n1⟩ : Row)]) k v2 n2).2 =
      (t ++ [(⟨k, v1, n1, n1⟩ : Row)]).map (updateRow k v2 n2) := by
    simp [store_string, hex]
  rw [h2, get_string_map_update, List.find?_append,
    find?_eq_none_of_absent habs]
  refine ⟨⟨k, v2, n1, n2⟩, ?_, rfl, rfl, hmono⟩
  simp

/-- Witness for C2: first write at time 1, second at time 2. -/
theorem C2_witness :
    keyExists [] "u" = false ∧ (1 : Nat) ≤ 2 ∧
    ((store_string (store_string [] "u" "hello" 1).2 "u" "hi" 2).1.action =
        "updated" ∧
     ((store_string (store_string [] "u" "hello" 1).2 "u" "hi" 2).2).length =
        List.length ([] : Table) + 1 ∧
     ∃ rec : RecordView,
       get_string (store_string (store_string [] "u" "hello" 1).2
          "u" "hi" 2).2 "u" = some rec ∧
       rec.data = "hi" ∧ rec.created_at = 1 ∧
       rec.created_at ≤ rec.updated_at) :=
  ⟨rfl, by decide,
    C2_update_preserves_creation [] "u" "hello" "hi" 1 2 rfl (by decide)⟩

/-- C3: the Upsert result reports `created`/201 exactly when the key was
absent and `updated`/200 exactly when it was present; it carries the
stored key and the length of the stored value, and depends on the value
only through its length (so it does not contain the value itself). -/
theorem C3_store_result (t : Table) (k v : String) (now : Nat) :
    ((store_string t k v now).1.action = "created" ∧
        (store_string t k v now).1.status_code = 201 ↔
      keyExists t k = false) ∧
    ((store_string t k v now).1.action = "updated" ∧
        (store_string t k v now).1.status_code = 200 ↔
      keyExists t k = true) ∧
    (store_string t k v now).1.index = k ∧
    (store_string t k v now).1.length = v.length ∧
    (∀ v' : String, v'.length = v.length →
      (store_string t k v' now).1 = (store_string t k v now).1) := by
  cases hk : keyExists t k with
  | true =>
    refine ⟨by simp [store_string, hk], by simp [store_string, hk],
      by simp [store_string, hk], by simp [store_string, hk], ?_⟩
    intro v' hv'
    simp [store_string, hk, hv']
  | false =>
    refine ⟨by simp [store_string, hk], by simp [store_string, hk],
      by simp [store_string, hk], by simp [store_string, hk], ?_⟩
    intro v' hv'
    simp [store_string, hk, hv']

/-- Witness for C3: a fresh-key store reports `created` and two values of
equal length give equal results. -/
theorem C3_witness :
    (store_string [] "a" "xx" 3).1.action = "created" ∧
    (store_string [] "a" "yy" 3).1 = (store_string [] "a" "xx" 3).1 :=
  ⟨((C3_store_result [] "a" "xx" 3).1.mpr rfl).1,
   (C3_store_result [] "a" "xx" 3).2.2.2.2 "yy" rfl⟩

/-- C4: on an absent key, Get returns the not-found signal and Delete
returns false, both leaving the state unchanged (neither can raise: both
are total functions); on a present key Delete returns true and removes
the record, and the immediately repeated Delete returns false and changes
nothing. -/
theorem C4_not_found_and_delete_idempotence (t : Table) (k : String) :
    (keyExists t k = false →
      get_string t k = none ∧ delete_string t k = (false, t)) ∧
    (keyExists t k = true →
      (delete_string t k).1 = true ∧
      keyExists (delete_string t k).2 k = false ∧
      delete_string (delete_string t k).2 k =
        (false, (delete_string t k).2)) := by
  constructor
  · intro habs
    constructor
    · rw [get_string_eq_find, find?_eq_none_of_absent habs]
      rfl
    · simp [delete_string, habs]
  · intro hex
    have hd : delete_string t k =
        (true, t.filter (fun r => !(r.index_key == k))) := by
      simp [delete_string, hex]
    have habs2 :
        keyExists (t.filter (fun r => !(r.index_key == k))) k = false := by
      simp [keyExists, List.mem_filter]
    refine ⟨by rw [hd], by rw [hd]; exact habs2, ?_⟩
    rw [hd]
    simp [delete_string, habs2]

/-- Witness for C4: an absent key in the empty table, a present key in a
one-row table. -/
theorem C4_witness :
    (get_string [] "a" = none ∧ delete_string [] "a" = (false, [])) ∧
    (delete_string [{ index_key := "a", data := "x", created_at := 0
                    , updated_at := 0 }] "a").1 = true :=
  ⟨(C4_not_found_and_delete_idempotence [] "a").1 rfl,
   ((C4_not_found_and_delete_idempotence
      [{ index_key := "a", data := "x", created_at := 0
       , updated_at := 0 }] "a").2 rfl).1⟩

/-- C5: ListAll returns exactly one entry per live record (a permutation
of the projected table, hence nothing else), ordered by `created_at`
descending; each entry carries key, `created_at`, `updated_at` and the
value length (the `IndexEntry` shape has no value field); and after
inserting keys A, B, C in that order with strictly increasing creation
timestamps it returns C, B, A. -/
theorem C5_list_all (t : Table) (kA kB kC vA vB vC : String)
    (nA nB nC : Nat) (hAB : kA ≠ kB) (hAC : kA ≠ kC) (hBC : kB ≠ kC)
    (hab : nA < nB) (hbc : nB < nC) :
    (list_all_indices t).length = t.length ∧
    (list_all_indices t).Perm (t.map toIndexEntry) ∧
    (list_all_indices t).Pairwise
      (fun a b => b.created_at ≤ a.created_at) ∧
    list_all_indices
        (store_string (store_string (store_string [] kA vA nA).2
          kB vB nB).2 kC vC nC).2 =
      [toIndexEntry ⟨kC, vC, nC, nC⟩, toIndexEntry ⟨kB, vB, nB, nB⟩,
       toIndexEntry ⟨kA, vA, nA, nA⟩] := by
  refine ⟨?_, ?_, ?_, ?_⟩
  · simp [list_all_indices, orderByCreatedDesc, List.length_insertionSort]
  · exact (List.perm_insertionSort createdDesc t).map toIndexEntry
  · exact List.pairwise_map.mpr
      ((List.sorted_insertionSort createdDesc t).imp (fun h => h))
  · have e1 : (store_string [] kA vA nA).2 = [(⟨kA, vA, nA, nA⟩ : Row)] := by
      simp [store_string, keyExists]
    rw [e1]
    have hexB : keyExists [(⟨kA, vA, nA, nA⟩ : Row)] kB = false := by
      simpa [keyExists] using hAB
    have e2 : (store_string [(⟨kA, vA, nA, nA⟩ : Row)] kB vB nB).2 =
        [(⟨kA, vA, nA, nA⟩ : Row), ⟨kB, vB, nB, nB⟩] := by
      simp [store_string, hexB]
    rw [e2]
    have hexC : keyExists [(⟨kA, vA, nA, nA⟩ : Row),
        ⟨kB, vB, nB, nB⟩] kC = false := by
      simp [keyExists]
      exact ⟨hAC, hBC⟩
    have e3 : (store_string [(⟨kA, vA, nA, nA⟩ : Row),
        ⟨kB, vB, nB, nB⟩] kC vC nC).2 =
        [(⟨kA, vA, nA, nA⟩ : Row), ⟨kB, vB, nB, nB⟩, ⟨kC, vC, nC, nC⟩] := by
      simp [store_string, hexC]
    rw [e3]
    have h1 : ¬ (nC ≤ nB) := by omega
    have h2 : ¬ (nC ≤ nA) := by omega
    have h3 : ¬ (nB ≤ nA) := by omega
    simp [list_all_indices, orderByCreatedDesc, List.insertionSort,
      createdDesc, h1, h2, h3]

/-- Witness for C5 at concrete keys and times. -/
theorem C5_witness :
    list_all_indices
        (store_string (store_string (store_string [] "A" "a" 1).2
          "B" "bb" 2).2 "C" "ccc" 3).2 =
      [toIndexEntry ⟨"C", "ccc", 3, 3⟩, toIndexEntry ⟨"B", "bb", 2, 2⟩,
       toIndexEntry ⟨"A", "a", 1, 1⟩] :=
  (C5_list_all [] "A" "B" "C" "a" "bb" "ccc" 1 2 3 (by decide) (by decide)
    (by decide) (by decide) (by decide)).2.2.2

/-- C6: Stats counts the live records, sums their value lengths (0, not
null, on the empty table), and carries `latest_record` exactly when the
table is non-empty, in which case it is the key and `created_at` of a
live record with maximal `created_at`. -/
theorem C6_stats (t : Table) (path : String) (ex : Bool) :
    (get_statistics t path ex).total_records = t.length ∧
    (get_statistics t path ex).total_data_size =
      (t.map (fun r => r.data.length)).sum ∧
    (t = [] → (get_statistics t path ex).total_data_size = 0) ∧
    ((get_statistics t path ex).latest_record = none ↔ t = []) ∧
    (∀ lr, (get_statistics t path ex).latest_record = some lr →
      ∃ r ∈ t, lr.index = r.index_key ∧ lr.created_at = r.created_at ∧
        ∀ r' ∈ t, r'.created_at ≤ r.created_at) := by
  refine ⟨rfl, rfl, ?_, ?_, ?_⟩
  · intro h
    simp [get_statistics, h]
  · simp only [get_statistics, Option.map_eq_none']
    rw [List.head?_eq_none_iff]
    constructor
    · intro h
      have := List.length_insertionSort createdDesc t
      rw [orderByCreatedDesc] at h
      rw [h] at this
      exact List.length_eq_zero.mp this.symm
    · intro h
      simp [orderByCreatedDesc, h]
  · intro lr hlr
    cases hs : orderByCreatedDesc t with
    | nil => simp [get_statistics, hs] at hlr
    | cons r0 rest =>
      have hlr0 : lr = (⟨r0.index_key, r0.created_at⟩ : LatestRecord) := by
        simp [get_statistics, hs] at hlr
        exact hlr.symm
      have hperm : (orderByCreatedDesc t).Perm t :=
        List.perm_insertionSort createdDesc t
      have hr0t : r0 ∈ t := hperm.mem_iff.mp (by simp [hs])
      refine ⟨r0, hr0t, by rw [hlr0], by rw [hlr0], ?_⟩
      intro r' hr'
      have hr's : r' ∈ orderByCreatedDesc t := hperm.mem_iff.mpr hr'
      rw [hs] at hr's
      have hsorted : List.Sorted createdDesc (r0 :: rest) := by
        rw [← hs]
        exact List.sorted_insertionSort createdDesc t
      rcases List.mem_cons.mp hr's with h | h
      · rw [h]
      · exact List.rel_of_sorted_cons hsorted r' h

/-- Witness for C6: a two-row table. -/
theorem C6_witness :
    ∃ lr, (get_statistics [(⟨"a", "xx", 1, 1⟩ : Row), ⟨"b", "y", 2, 2⟩]
        "strings.db" true).latest_record = some lr ∧
      ∃ r ∈ [(⟨"a", "xx", 1, 1⟩ : Row), ⟨"b", "y", 2, 2⟩],
        lr.index = r.index_key ∧ lr.created_at = r.created_at ∧
        ∀ r' ∈ [(⟨"a", "xx", 1, 1⟩ : Row), ⟨"b", "y", 2, 2⟩],
          r'.created_at ≤ r.created_at :=
  ⟨{ index := "b", created_at := 2 },
   by simp [get_statistics, orderByCreatedDesc, List.insertionSort,
        createdDesc],
   (C6_stats [(⟨"a", "xx", 1, 1⟩ : Row), ⟨"b", "y", 2, 2⟩]
      "strings.db" true).2.2.2.2 { index := "b", created_at := 2 }
     (by simp [get_statistics, orderByCreatedDesc, List.insertionSort,
        createdDesc])⟩

/-- C10: ListAll and Stats agree: the number of ListAll entries equals
`total_records`, the sum of ListAll value lengths equals
`total_data_size`, and the first ListAll entry names the same key and
`created_at` as `latest_record`. -/
theorem C10_list_stats_agree (t : Table) (path : String) (ex : Bool) :
    (list_all_indices t).length =
      (get_statistics t path ex).total_records ∧
    ((list_all_indices t).map (fun e => e.data_length)).sum =
      (get_statistics t path ex).total_data_size ∧
    (∀ e es, list_all_indices t = e :: es →
      (get_statistics t path ex).latest_record =
        some { index := e.index, created_at := e.created_at }) := by
  refine ⟨?_, ?_, ?_⟩
  · simp [list_all_indices, orderByCreatedDesc, get_statistics,
      List.length_insertionSort]
  · have hperm : ((orderByCreatedDesc t).map
        (fun r => r.data.length)).Perm (t.map (fun r => r.data.length)) :=
      (List.perm_insertionSort createdDesc t).map _
    have : ((list_all_indices t).map (fun e => e.data_length)) =
        (orderByCreatedDesc t).map (fun r => r.data.length) := by
      simp [list_all_indices, toIndexEntry]
    rw [this]
    exact hperm.sum_eq
  · intro e es h
    cases hs : orderByCreatedDesc t with
    | nil => simp [list_all_indices, hs] at h
    | cons r0 rest =>
      have he : e = toIndexEntry r0 := by
        rw [list_all_indices, hs] at h
        exact (List.cons.injEq _ _ _ _ ▸ h : _ ∧ _).1.symm
      simp [get_statistics, hs, he, toIndexEntry]

/-- Witness for C10: head agreement on a concrete two-row table. -/
theorem C10_witness :
    (get_statistics [(⟨"a", "xx", 1, 1⟩ : Row), ⟨"b", "y", 2, 2⟩]
        "strings.db" true).latest_record =
      some (⟨(toIndexEntry (⟨"b", "y", 2, 2⟩ : Row)).index,
        (toIndexEntry (⟨"b", "y", 2, 2⟩ : Row)).created_at⟩ : LatestRecord) :=
  (C10_list_stats_agree [(⟨"a", "xx", 1, 1⟩ : Row), ⟨"b", "y", 2, 2⟩]
      "strings.db" true).2.2 (toIndexEntry ⟨"b", "y", 2, 2⟩)
    [toIndexEntry ⟨"a", "xx", 1, 1⟩]
    (by simp [list_all_indices, orderByCreatedDesc, List.insertionSort,
      createdDesc, toIndexEntry])

/-! ## Reachable states (for the invariant claim) -/

/-- The five operations of the storage manager, as called by the route
layer (src/routes.py): store carries key and value, get/delete carry the
key, list and stats carry nothing. -/
inductive Op where
  | store (index data : String)
  | get (index : String)
  | delete (index : String)
  | listAll
  | stats
deriving Repr, DecidableEq

/-- State effect of one operation executed at wall-clock time `now`:
`get_string`, `list_all_indices` and `get_statistics` only read. -/
def applyOp (t : Table) (op : Op) (now : Nat) : Table :=
  match op with
  | .store i d => (store_string t i d now).2
  | .delete i => (delete_string t i).2
  | _ => t

/-- Run a timed sequence of operations. -/
def runOps (t : Table) : List (Op × Nat) → Table
  | [] => t
  | (op, n) :: rest => runOps (applyOp t op n) rest

/-- Both timestamps of every row are ordered and bounded by the wall
clock. -/
def TimesWf (t : Table) (bound : Nat) : Prop :=
  ∀ r ∈ t, r.created_at ≤ r.updated_at ∧ r.updated_at ≤ bound

theorem store_string_snd_pos {t : Table} {i d : String} {now : Nat}
    (hk : keyExists t i = true) :
    (store_string t i d now).2 = t.map (updateRow i d now) := by
  simp [store_string, hk]

theorem store_string_snd_neg {t : Table} {i d : String} {now : Nat}
    (hk : keyExists t i = false) :
    (store_string t i d now).2 = t ++ [(⟨i, d, now, now⟩ : Row)] := by
  simp [store_string, hk]

theorem applyOp_wf {t : Table} {bound now : Nat} (h : TimesWf t bound)
    (hb : bound ≤ now) (op : Op) : TimesWf (applyOp t op now) now := by
  cases op with
  | store i d =>
    cases hk : keyExists t i with
    | true =>
      intro r hr
      rw [applyOp, store_string_snd_pos hk] at hr
      obtain ⟨r0, hr0, hmap⟩ := List.mem_map.mp hr
      obtain ⟨h1, h2⟩ := h r0 hr0
      rw [updateRow] at hmap
      by_cases hm : (r0.index_key == i) = true
      · rw [if_pos hm] at hmap
        rw [← hmap]
        exact ⟨le_trans (le_trans h1 h2) hb, le_refl now⟩
      · rw [if_neg hm] at hmap
        rw [← hmap]
        exact ⟨h1, le_trans h2 hb⟩
    | false =>
      intro r hr
      rw [applyOp, store_string_snd_neg hk] at hr
      rcases List.mem_append.mp hr with hold | hnew
      · obtain ⟨h1, h2⟩ := h r hold
        exact ⟨h1, le_trans h2 hb⟩
      · rw [List.mem_singleton.mp hnew]
        exact ⟨le_refl now, le_refl now⟩
  | get i =>
    intro r hr
    obtain ⟨h1, h2⟩ := h r hr
    exact ⟨h1, le_trans h2 hb⟩
  | delete i =>
    intro r hr
    rw [applyOp, delete_string] at hr
    have hrt : r ∈ t := by
      by_cases hk : keyExists t i = true
      · rw [if_pos hk] at hr
        exact (List.mem_filter.mp hr).1
      · rw [if_neg hk] at hr
        exact hr
    obtain ⟨h1, h2⟩ := h r hrt
    exact ⟨h1, le_trans h2 hb⟩
  | listAll =>
    intro r hr
    obtain ⟨h1, h2⟩ := h r hr
    exact ⟨h1, le_trans h2 hb⟩
  | stats =>
    intro r hr
    obtain ⟨h1, h2⟩ := h r hr
    exact ⟨h1, le_trans h2 hb⟩

theorem runOps_wf : ∀ (ops : List (Op × Nat)) (t : Table) (bound : Nat),
    TimesWf t bound →
    List.Chain' (· ≤ ·) (bound :: ops.map Prod.snd) →
    ∀ r ∈ runOps t ops, r.created_at ≤ r.updated_at := by
  intro ops
  induction ops with
  | nil =>
    intro t bound h _ r hr
    exact (h r hr).1
  | cons hd rest ih =>
    intro t bound h hchain r hr
    obtain ⟨op, n⟩ := hd
    rw [List.map_cons, List.chain'_cons] at hchain
    exact ih (applyOp t op n) n (applyOp_wf h hchain.1 op)
      (hchain.2) r hr

/-- C7: in every state reachable from the empty table by any timed
sequence of the five operations under a monotone (nondecreasing) clock,
every live record satisfies `created_at ≤ updated_at`. -/
theorem C7_invariant_created_le_updated (ops : List (Op × Nat))
    (hmono : List.Chain' (· ≤ ·) (ops.map Prod.snd)) :
    ∀ r ∈ runOps [] ops, r.created_at ≤ r.updated_at := by
  apply runOps_wf ops [] 0 (fun r hr => absurd hr (List.not_mem_nil r))
  rw [List.chain'_cons']
  exact ⟨fun b _ => Nat.zero_le b, hmono⟩

/-- Witness for C7: a store, an overwrite, a delete, a re-store. -/
theorem C7_witness :
    List.Chain' (· ≤ ·)
      (([(Op.store "a" "x", 1), (Op.store "a" "yy", 2), (Op.get "a", 3),
         (Op.delete "a", 4), (Op.store "b" "z", 5),
         (Op.stats, 6)].map Prod.snd)) ∧
    ∀ r ∈ runOps []
        [(Op.store "a" "x", 1), (Op.store "a" "yy", 2), (Op.get "a", 3),
         (Op.delete "a", 4), (Op.store "b" "z", 5), (Op.stats, 6)],
      r.created_at ≤ r.updated_at :=
  ⟨by simp [List.chain'_cons],
   C7_invariant_created_le_updated
     [(Op.store "a" "x", 1), (Op.store "a" "yy", 2), (Op.get "a", 3),
      (Op.delete "a", 4), (Op.store "b" "z", 5), (Op.stats, 6)]
     (by simp [List.chain'_cons])⟩

/-! ## Frame lemmas for C8 -/

/-- Deleting key `k` does not change what any other key reads. -/
theorem get_string_filter_other (t : Table) (k k' : String)
    (hne : k' ≠ k) :
    get_string (t.filter (fun r => !(r.index_key == k))) k' =
      get_string t k' := by
  induction t with
  | nil => rfl
  | cons x xs ih =>
    rw [List.filter_cons]
    cases hxk : (x.index_key == k) with
    | true =>
      have hxke : x.index_key = k := by simpa using hxk
      have hx : (x.index_key == k') = false := by
        simp [hxke]
        exact fun hc => hne hc.symm
      simp only [hxk, Bool.not_true, Bool.false_eq_true, if_false]
      rw [ih, get_string_eq_find, get_string_eq_find]
      simp only [List.find?, hx]
    | false =>
      simp only [hxk, Bool.not_false, if_true]
      rw [get_string_eq_find, get_string_eq_find]
      cases hx : (x.index_key == k') with
      | true => simp only [List.find?, hx]
      | false =>
        simp only [List.find?, hx]
        rw [← get_string_eq_find, ← get_string_eq_find]
        exact ih

/-- Under unique keys, the DELETE of a present key removes exactly one
row. -/
theorem filter_out_key_length (k : String) : ∀ t : Table,
    (t.map Row.index_key).Nodup → keyExists t k = true →
    (t.filter (fun r => !(r.index_key == k))).length + 1 = t.length := by
  intro t
  induction t with
  | nil =>
    intro _ hex
    simp [keyExists] at hex
  | cons x xs ih =>
    intro hnd hex
    rw [List.map_cons, List.nodup_cons] at hnd
    rw [List.filter_cons]
    cases hxk : (x.index_key == k) with
    | true =>
      have hxke : x.index_key = k := by simpa using hxk
      have hall : xs.filter (fun r => !(r.index_key == k)) = xs := by
        rw [List.filter_eq_self]
        intro r hr
        have hrk : r.index_key ≠ k := by
          intro hc
          exact hnd.1 (List.mem_map.mpr ⟨r, hr, by rw [hc, hxke]⟩)
        simp [hrk]
      simp [hxk, hall]
    | false =>
      have hex' : keyExists xs k = true := by
        have := hex
        rw [keyExists, List.any_cons, hxk] at this
        simpa [keyExists] using this
      simp only [hxk, Bool.not_false, if_true, List.length_cons]
      rw [← ih hnd.2 hex']

/-- C8: operations touch a single row. Upsert on an absent key appends
exactly one new row; on a present key it changes no row count; in both
cases every record under a different key reads back unchanged and every
row with a different key survives as-is. Delete removes exactly the one
row with the key (under the UNIQUE-constraint invariant of distinct
keys), changes nothing when the key is absent, and leaves all other rows
unchanged. -/
theorem C8_single_row_frame (t : Table) (k v : String) (now : Nat)
    (k' : String) (hne : k' ≠ k) :
    get_string (store_string t k v now).2 k' = get_string t k' ∧
    get_string (delete_string t k).2 k' = get_string t k' ∧
    (keyExists t k = false →
      (store_string t k v now).2 = t ++ [(⟨k, v, now, now⟩ : Row)]) ∧
    (keyExists t k = true →
      ((store_string t k v now).2).length = t.length) ∧
    (∀ r ∈ t, r.index_key ≠ k → r ∈ (store_string t k v now).2) ∧
    (∀ r ∈ t, r.index_key ≠ k → r ∈ (delete_string t k).2) ∧
    (keyExists t k = false → (delete_string t k).2 = t) ∧
    ((t.map Row.index_key).Nodup → keyExists t k = true →
      ((delete_string t k).2).length + 1 = t.length) := by
  refine ⟨?_, ?_, ?_, ?_, ?_, ?_, ?_, ?_⟩
  · cases hk : keyExists t k with
    | true =>
      rw [store_string_snd_pos hk]
      exact get_string_map_update_other t k v now k' hne
    | false =>
      rw [store_string_snd_neg hk, get_string_eq_find, List.find?_append]
      have : List.find? (fun r => r.index_key == k')
          [(⟨k, v, now, now⟩ : Row)] = none := by
        simp
        exact fun hc => hne hc.symm
      rw [this, Option.or_none, ← get_string_eq_find]
  · cases hk : keyExists t k with
    | true =>
      rw [delete_string, if_pos hk]
      exact get_string_filter_other t k k' hne
    | false => rw [delete_string, if_neg (by simp [hk])]
  · intro hk
    exact store_string_snd_neg hk
  · intro hk
    rw [store_string_snd_pos hk, List.length_map]
  · intro r hr hrk
    cases hk : keyExists t k with
    | true =>
      rw [store_string_snd_pos hk]
      exact List.mem_map.mpr ⟨r, hr, by simp [updateRow, hrk]⟩
    | false =>
      rw [store_string_snd_neg hk]
      exact List.mem_append_left _ hr
  · intro r hr hrk
    cases hk : keyExists t k with
    | true =>
      rw [delete_string, if_pos hk]
      exact List.mem_filter.mpr ⟨hr, by simp [hrk]⟩
    | false => rw [delete_string, if_neg (by simp [hk])]; exact hr
  · intro hk
    rw [delete_string, if_neg (by simp [hk])]
  · intro hnd hk
    rw [delete_string, if_pos hk]
    exact filter_out_key_length k t hnd hk

/-- Witness for C8 on a two-row table with distinct keys. -/
theorem C8_witness :
    get_string (store_string [(⟨"a", "x", 1, 1⟩ : Row), ⟨"b", "y", 2, 2⟩]
        "a" "z" 3).2 "b" =
      get_string [(⟨"a", "x", 1, 1⟩ : Row), ⟨"b", "y", 2, 2⟩] "b" ∧
    ((delete_string [(⟨"a", "x", 1, 1⟩ : Row), ⟨"b", "y", 2, 2⟩]
        "a").2).length + 1 =
      ([(⟨"a", "x", 1, 1⟩ : Row), ⟨"b", "y", 2, 2⟩] : Table).length :=
  ⟨(C8_single_row_frame [(⟨"a", "x", 1, 1⟩ : Row), ⟨"b", "y", 2, 2⟩]
      "a" "z" 3 "b" (by decide)).1,
   (C8_single_row_frame [(⟨"a", "x", 1, 1⟩ : Row), ⟨"b", "y", 2, 2⟩]
      "a" "z" 3 "b" (by decide)).2.2.2.2.2.2.2 (by decide) (by decide)⟩

/-! ## Concurrent upserts to one new key (C9)

The insert-then-catch-`IntegrityError`-then-update body of `store_string`
is not atomic: the INSERT attempt and the fallback UPDATE are two separate
statements.  The model below makes each of them one atomic step and lets a
scheduler interleave any number of in-flight `store_string` calls that all
target the same key `k`. -/

/-- Program counter of one in-flight `store_string` call: `start` = about
to attempt the INSERT, `needUpdate` = the INSERT raised `IntegrityError`
(the UNIQUE constraint saw the key) and the fallback UPDATE is pending,
`done` = the call returned. -/
inductive PC where
  | start
  | needUpdate
  | done
deriving Repr, DecidableEq

/-- One in-flight upsert call: the value it writes and how far it got. -/
structure Proc where
  value : String
  pc : PC
deriving Repr, DecidableEq

/-- The shared table plus the in-flight calls, all targeting key `k`. -/
structure CState where
  table : Table
  procs : List Proc
deriving Repr, DecidableEq

/-- One atomic step of a single call, mirroring `store_string`: from
`start`, the INSERT succeeds (appending the row, both timestamps `now`)
when the key is absent, and otherwise raises `IntegrityError`, caught and
turned into a pending UPDATE; from `needUpdate`, the UPDATE runs.  No
branch surfaces an error. -/
def procStep (k : String) (t : Table) (p : Proc) (now : Nat) :
    Table × Proc :=
  match p.pc with
  | PC.start =>
      if keyExists t k then (t, { p with pc := PC.needUpdate })
      else (t ++ [(⟨k, p.value, now, now⟩ : Row)], { p with pc := PC.done })
  | PC.needUpdate =>
      (t.map (updateRow k p.value now), { p with pc := PC.done })
  | PC.done => (t, p)

/-- Scheduler step: run one atomic step of call `i` at time `now`. -/
def schedStep (k : String) (s : CState) (i : Nat) (now : Nat) : CState :=
  match s.procs[i]? with
  | none => s
  | some p =>
      { table := (procStep k s.table p now).1
      , procs := s.procs.set i (procStep k s.table p now).2 }

/-- Run a whole schedule (list of call index / time pairs). -/
def runSched (k : String) (s : CState) : List (Nat × Nat) → CState
  | [] => s
  | (i, n) :: rest => runSched k (schedStep k s i n) rest

theorem updateRow_index_key (k d : String) (n : Nat) (r : Row) :
    (updateRow k d n r).index_key = r.index_key := by
  rw [updateRow]
  split <;> rfl

theorem filter_key_map_update (t : Table) (k d : String) (n : Nat)
    (k' : String) :
    ((t.map (updateRow k d n)).filter
        (fun r => r.index_key == k')).length =
      (t.filter (fun r => r.index_key == k')).length := by
  induction t with
  | nil => rfl
  | cons x xs ih =>
    rw [List.map_cons, List.filter_cons, List.filter_cons]
    cases hx : (x.index_key == k') with
    | true => simp only [updateRow_index_key, hx, if_true,
        List.length_cons, ih]
    | false => simp only [updateRow_index_key, hx, Bool.false_eq_true,
        if_false, ih]

theorem keyExists_map_update (t : Table) (k d : String) (n : Nat)
    (k' : String) :
    keyExists (t.map (updateRow k d n)) k' = keyExists t k' := by
  rw [keyExists, keyExists]
  induction t with
  | nil => rfl
  | cons x xs ih =>
    rw [List.map_cons, List.any_cons, List.any_cons,
      updateRow_index_key, ih]

/-- Invariant of the race: at most one row under `k`, every row under `k`
holds one of the supplied values, the key can only be absent while no call
has moved, every call writes one of the supplied values, and the number of
calls never changes. -/
def RaceInv (k : String) (vs : List String) (s : CState) : Prop :=
  (s.table.filter (fun r => r.index_key == k)).length ≤ 1 ∧
  (∀ r ∈ s.table, r.index_key = k → r.data ∈ vs) ∧
  (keyExists s.table k = false → ∀ p ∈ s.procs, p.pc = PC.start) ∧
  (∀ p ∈ s.procs, p.value ∈ vs) ∧
  s.procs.length = vs.length

theorem schedStep_inv {k : String} {vs : List String} {s : CState}
    (h : RaceInv k vs s) (i now : Nat) :
    RaceInv k vs (schedStep k s i now) := by
  obtain ⟨h1, h2, h3, h4, h5⟩ := h
  rw [schedStep]
  cases hp : s.procs[i]? with
  | none => exact ⟨h1, h2, h3, h4, h5⟩
  | some p =>
    have hpmem : p ∈ s.procs := List.getElem?_mem hp
    change RaceInv k vs ⟨(procStep k s.table p now).1,
      s.procs.set i (procStep k s.table p now).2⟩
    obtain ⟨pv, pc⟩ := p
    cases pc with
    | start =>
      cases hk : keyExists s.table k with
      | true =>
        have hstep : procStep k s.table ⟨pv, PC.start⟩ now =
            (s.table, (⟨pv, PC.needUpdate⟩ : Proc)) := by
          simp [procStep, hk]
        rw [hstep]
        refine ⟨h1, h2, ?_, ?_, ?_⟩
        · intro habs
          rw [hk] at habs
          simp at habs
        · intro q hq
          rcases List.mem_or_eq_of_mem_set hq with hq' | hq'
          · exact h4 q hq'
          · rw [hq']
            exact h4 ⟨pv, PC.start⟩ hpmem
        · rw [List.length_set]
          exact h5
      | false =>
        have hfilnil : s.table.filter (fun r => r.index_key == k) = [] := by
          rw [List.filter_eq_nil_iff]
          intro r hr
          simpa using (keyExists_eq_false_iff s.table k).1 hk r hr
        have hstep : procStep k s.table ⟨pv, PC.start⟩ now =
            (s.table ++ [(⟨k, pv, now, now⟩ : Row)],
             (⟨pv, PC.done⟩ : Proc)) := by
          simp [procStep, hk]
        rw [hstep]
        refine ⟨?_, ?_, ?_, ?_, ?_⟩
        · rw [List.filter_append, hfilnil]
          simp
        · intro r hr hrk
          rcases List.mem_append.mp hr with hold | hnew
          · exact h2 r hold hrk
          · rw [List.mem_singleton.mp hnew]
            exact h4 ⟨pv, PC.start⟩ hpmem
        · intro habs
          have : keyExists (s.table ++ [(⟨k, pv, now, now⟩ : Row)]) k =
              true := by
            simp [keyExists]
          rw [this] at habs
          simp at habs
        · intro q hq
          rcases List.mem_or_eq_of_mem_set hq with hq' | hq'
          · exact h4 q hq'
          · rw [hq']
            exact h4 ⟨pv, PC.start⟩ hpmem
        · rw [List.length_set]
          exact h5
    | needUpdate =>
      have hstep : procStep k s.table ⟨pv, PC.needUpdate⟩ now =
          (s.table.map (updateRow k pv now), (⟨pv, PC.done⟩ : Proc)) := rfl
      rw [hstep]
      refine ⟨?_, ?_, ?_, ?_, ?_⟩
      · rw [filter_key_map_update]
        exact h1
      · intro r hr hrk
        obtain ⟨r0, hr0, hmap⟩ := List.mem_map.mp hr
        rw [updateRow] at hmap
        by_cases hm : (r0.index_key == k) = true
        · rw [if_pos hm] at hmap
          rw [← hmap]
          exact h4 ⟨pv, PC.needUpdate⟩ hpmem
        · rw [if_neg hm] at hmap
          rw [← hmap] at hrk ⊢
          exact h2 r0 hr0 hrk
      · intro habs
        rw [keyExists_map_update] at habs
        have := h3 habs ⟨pv, PC.needUpdate⟩ hpmem
        simp at this
      · intro q hq
        rcases List.mem_or_eq_of_mem_set hq with hq' | hq'
        · exact h4 q hq'
        · rw [hq']
          exact h4 ⟨pv, PC.needUpdate⟩ hpmem
      · rw [List.length_set]
        exact h5
    | done =>
      refine ⟨h1, h2, ?_, ?_, ?_⟩
      · intro habs
        have := h3 habs ⟨pv, PC.done⟩ hpmem
        simp at this
      · intro q hq
        rcases List.mem_or_eq_of_mem_set hq with hq' | hq'
        · exact h4 q hq'
        · rw [hq']
          exact h4 ⟨pv, PC.done⟩ hpmem
      · rw [List.length_set]
        exact h5

theorem runSched_inv {k : String} {vs : List String} :
    ∀ (sched : List (Nat × Nat)) (s : CState),
    RaceInv k vs s → RaceInv k vs (runSched k s sched) := by
  intro sched
  induction sched with
  | nil =>
    intro s h
    exact h
  | cons x rest ih =>
    intro s h
    obtain ⟨i, n⟩ := x
    exact ih _ (schedStep_inv h i n)

/-- C9: for any number of interleaved upserts that all target the same
previously-absent key, after every call has completed the table holds
exactly one row under that key and its value is one of the supplied
values; the losers of the insert race took the caught-`IntegrityError`
update path (the model has no error outcome). -/
theorem C9_uniqueness_under_contention (k : String) (vs : List String)
    (t0 : Table) (sched : List (Nat × Nat))
    (habs : keyExists t0 k = false) (hvs : vs ≠ [])
    (hdone : ∀ p ∈ (runSched k ⟨t0, vs.map (fun v => ⟨v, PC.start⟩)⟩
        sched).procs, p.pc = PC.done) :
    ((runSched k ⟨t0, vs.map (fun v => ⟨v, PC.start⟩)⟩
        sched).table.filter (fun r => r.index_key == k)).length = 1 ∧
    ∀ r ∈ (runSched k ⟨t0, vs.map (fun v => ⟨v, PC.start⟩)⟩ sched).table,
      r.index_key = k → r.data ∈ vs := by
  have hinv0 : RaceInv k vs ⟨t0, vs.map (fun v => ⟨v, PC.start⟩)⟩ := by
    refine ⟨?_, ?_, ?_, ?_, ?_⟩
    · have hnil : t0.filter (fun r => r.index_key == k) = [] := by
        rw [List.filter_eq_nil_iff]
        intro r hr
        simpa using (keyExists_eq_false_iff t0 k).1 habs r hr
      rw [hnil]
      simp
    · intro r hr hrk
      exact absurd hrk ((keyExists_eq_false_iff t0 k).1 habs r hr)
    · intro _ p hp
      obtain ⟨v, _, hveq⟩ := List.mem_map.mp hp
      rw [← hveq]
    · intro p hp
      obtain ⟨v, hv, hveq⟩ := List.mem_map.mp hp
      rw [← hveq]
      exact hv
    · rw [List.length_map]
  have hinv := runSched_inv sched _ hinv0
  obtain ⟨h1, h2, h3, h4, h5⟩ := hinv
  refine ⟨?_, h2⟩
  have hprocs_ne : (runSched k ⟨t0, vs.map (fun v => ⟨v, PC.start⟩)⟩
      sched).procs ≠ [] := by
    intro hnil
    rw [hnil] at h5
    exact hvs (List.length_eq_zero.mp h5.symm)
  obtain ⟨q, hq⟩ := List.exists_mem_of_ne_nil _ hprocs_ne
  have hkex : keyExists (runSched k ⟨t0, vs.map (fun v => ⟨v, PC.start⟩)⟩
      sched).table k = true := by
    cases hkx : keyExists (runSched k ⟨t0,
        vs.map (fun v => ⟨v, PC.start⟩)⟩ sched).table k with
    | true => rfl
    | false =>
      have hqs := h3 hkx q hq
      rw [hdone q hq] at hqs
      simp at hqs
  have hfilne : ((runSched k ⟨t0, vs.map (fun v => ⟨v, PC.start⟩)⟩
      sched).table.filter (fun r => r.index_key == k)) ≠ [] := by
    intro hnil
    obtain ⟨r, hr, hrk⟩ := (keyExists_iff _ k).1 hkex
    have hmem : r ∈ (runSched k ⟨t0, vs.map (fun v => ⟨v, PC.start⟩)⟩
        sched).table.filter (fun r => r.index_key == k) :=
      List.mem_filter.mpr ⟨hr, by simp [hrk]⟩
    rw [hnil] at hmem
    exact List.not_mem_nil r hmem
  have hge := List.length_pos.mpr hfilne
  omega

/-- Witness for C9: two racing upserts of "a" and "b" to the fresh key
"k"; the second call loses the insert race and updates. -/
theorem C9_witness :
    keyExists [] "k" = false ∧ (["a", "b"] : List String) ≠ [] ∧
    ((runSched "k" ⟨[], (["a", "b"] : List String).map
        (fun v => ⟨v, PC.start⟩)⟩ [(0, 1), (1, 2), (1, 3)]).table.filter
        (fun r => r.index_key == "k")).length = 1 :=
  ⟨rfl, by decide,
   (C9_uniqueness_under_contention "k" ["a", "b"] [] [(0, 1), (1, 2), (1, 3)]
      rfl (by decide) (by decide)).1⟩
